import Mathlib

/-!
Verification of the language-inventory aggregation engine
(`ado_lang_inspector.py`): extension-based language classification,
recency-filter path-set construction from commit change records, and the
per-repository / tenant-wide aggregation loop of `main`, shallowly embedded
in Lean.  API fetches are modelled as data carried by the world
(`Except String _` for calls that can fail with an HTTP error), and the
stateful loop of `main` as explicit state passing over `RunState`.
-/

/-- The static `EXT_TO_LANG` table, in source order. -/
def EXT_TO_LANG : List (String × String) :=
  [("bicep", "Bicep"),
   ("json", "JSON"),
   ("yaml", "YAML"), ("yml", "YAML"),
   ("tf", "Terraform"),
   ("ps1", "PowerShell"), ("psm1", "PowerShell"),
   ("sh", "Shell"),
   ("py", "Python"),
   ("ts", "TypeScript"), ("tsx", "TypeScript"),
   ("js", "JavaScript"), ("jsx", "JavaScript"),
   ("cs", "C#"),
   ("java", "Java"),
   ("go", "Go"),
   ("rb", "Ruby"),
   ("php", "PHP"),
   ("rs", "Rust"),
   ("cpp", "C++"), ("cxx", "C++"), ("cc", "C++"),
   ("c", "C"),
   ("h", "C/C++ Header"), ("hpp", "C++ Header"), ("hxx", "C++ Header"),
   ("scala", "Scala"),
   ("kt", "Kotlin"),
   ("md", "Markdown"),
   ("csv", "CSV"),
   ("xml", "XML"),
   ("ini", "INI"),
   ("toml", "TOML")]

/-- `NON_CODE_LANGS` from the source (defined there but, notably, never used
by `main`, which instead writes the literal `\x7b\x7b"Markdown","CSV"\x7d\x7d`). -/
def NON_CODE_LANGS : List String := ["Markdown", "CSV"]

/-- Python's `str.lower()` (ASCII case folding suffices for the inputs the
program feeds it: change-type names and file extensions). -/
def lowerStr (s : String) : String := ⟨s.toList.map Char.toLower⟩

/-- `s.rsplit(sep, 1)[-1]` for a one-character separator: the suffix of `s`
after the last occurrence of `sep`, the whole string when `sep` is absent. -/
def afterLast (sep : Char) (s : List Char) : List Char :=
  s.foldl (fun acc c => if c = sep then [] else acc ++ [c]) []

/-- `ext_from_path`: take the final slash-separated segment; if it contains
no dot the extension is empty, otherwise it is the lower-cased suffix after
the last dot. -/
def ext_from_path (path : String) : String :=
  let name := afterLast '/' path.toList
  if '.' ∈ name then ((afterLast '.' name).map Char.toLower).asString else ""

/-- `lang_from_ext`: static table lookup with an `"Other"` fallback. -/
def lang_from_ext (ext : String) : String :=
  (EXT_TO_LANG.lookup ext).getD "Other"

/-- The classification used by `main`: `lang_from_ext(ext_from_path(path))`. -/
def classify (path : String) : String :=
  lang_from_ext (ext_from_path path)

/-- The spec's description of the extension function, stated with
reverse/takeWhile instead of the source's rsplit: the final path segment is
the maximal slash-free suffix, and the extension is the maximal dot-free
suffix of that segment, case-folded, empty when the segment has no dot. -/
def ext_spec (path : String) : String :=
  let name := (path.toList.reverse.takeWhile (fun c => c ≠ '/')).reverse
  if '.' ∈ name then
    (((name.reverse.takeWhile (fun c => c ≠ '.')).reverse).map Char.toLower).asString
  else ""

/-- One entry of a commit's `changes` list: the change type string and the
optional `item.path`. -/
structure Change where
  changeType : String
  path : Option String
deriving DecidableEq, Repr

/-- A Python `set` of strings, modelled as a duplicate-free list in
insertion order: `s.add(p)` is a no-op when `p` is already present and
appends it otherwise.  Only membership is ever observed. -/
def setInsert (s : List String) (p : String) : List String :=
  if p ∈ s then s else s ++ [p]

/-- The per-change step of `list_changed_paths_for_commits`, acting on the
pair (created, changed) of path sets.  A missing or empty path is skipped
(`if not path: continue`); an `add` inserts into both sets; `edit`/`rename`
insert into `changed` only. -/
def applyChange (acc : List String × List String) (ch : Change) :
    List String × List String :=
  let ctype := lowerStr ch.changeType
  match ch.path with
  | none => acc
  | some p =>
    if p = "" then acc
    else if ctype = "add" then (setInsert acc.1 p, setInsert acc.2 p)
    else if ctype = "edit" ∨ ctype = "rename" then (acc.1, setInsert acc.2 p)
    else acc

/-- `ADO.list_changed_paths_for_commits`: fold every change of every commit
into the (created, changed) sets and return `created` when `created_only`,
else `changed`.  Each element of `commits` is one commit's `changes` list. -/
def list_changed_paths_for_commits (commits : List (List Change))
    (created_only : Bool) : List String :=
  let acc := commits.foldl (fun a cs => cs.foldl applyChange a) ([], [])
  if created_only then acc.1 else acc.2

/-- A change record contributing to the `created` set: an `add` with a
usable path. -/
def isAddOf (ch : Change) (p : String) : Prop :=
  ch.path = some p ∧ p ≠ "" ∧ lowerStr ch.changeType = "add"

/-- A change record contributing to the `changed` set: an `add`, `edit` or
`rename` with a usable path. -/
def isTouchOf (ch : Change) (p : String) : Prop :=
  ch.path = some p ∧ p ≠ "" ∧
    (lowerStr ch.changeType = "add" ∨ lowerStr ch.changeType = "edit" ∨
      lowerStr ch.changeType = "rename")

instance (ch : Change) (p : String) : Decidable (isAddOf ch p) := by
  unfold isAddOf; infer_instance

instance (ch : Change) (p : String) : Decidable (isTouchOf ch p) := by
  unfold isTouchOf; infer_instance

/-- An insertion-ordered tally, modelling a Python `Counter` built only by
`t[k] += b` updates: the key order is first-insertion order. -/
abbrev Tally := List (String × Nat)

/-- `t[lang] += b` on a `Counter`: update the (unique) existing entry in
place, or append a new entry at the end (missing keys count as 0). -/
def addTally : Tally → String → Nat → Tally
  | [], lang, b => [(lang, b)]
  | q :: t, lang, b =>
    if q.1 = lang then (q.1, q.2 + b) :: t else q :: addTally t lang b

/-- The value stored under a key, when present. -/
def lookupTally (t : Tally) (lang : String) : Option Nat :=
  (t.find? (fun q => q.1 = lang)).map (fun q => q.2)

/-- `sum(t.values())`. -/
def sumTally (t : Tally) : Nat := (t.map (fun q => q.2)).sum

/-- Stable descending insertion: place `x` before the first entry whose
count is at most `x`'s (so earlier-inserted entries win ties). -/
def insertDesc (x : String × Nat) : Tally → Tally
  | [] => [x]
  | y :: ys => if y.2 ≤ x.2 then x :: y :: ys else y :: insertDesc x ys

/-- `Counter.most_common()`: the entries sorted by descending count with a
stable sort, so ties keep first-insertion order. -/
def sortTallyDesc : Tally → Tally
  | [] => []
  | x :: xs => insertDesc x (sortTallyDesc xs)

/-- Python's bankers rounding to the nearest integer (ties to even). -/
def roundHalfEven (x : ℚ) : ℤ :=
  if x - ⌊x⌋ < 1 / 2 then ⌊x⌋
  else if 1 / 2 < x - ⌊x⌋ then ⌊x⌋ + 1
  else if ⌊x⌋ % 2 = 0 then ⌊x⌋ else ⌊x⌋ + 1

/-- `round(x, 2)`: round to two decimal places. -/
def round2 (x : ℚ) : ℚ := (roundHalfEven (x * 100) : ℚ) / 100

/-- The run configuration (the fields of `args` the aggregation reads):
whether a since-date was resolved, `--created-only`, `--exclude-non-code`. -/
structure Config where
  since : Bool
  created_only : Bool
  exclude_non_code : Bool
deriving DecidableEq, Repr

/-- One commit as returned by `list_commits`, carrying the outcome of the
`/changes` request that `list_changed_paths_for_commits` would issue for it
(`.error` models an HTTP failure of that request). -/
structure CommitData where
  commitId : String
  changes : Except String (List Change)
deriving Repr

/-- One blob yielded by `list_files`: path and size. -/
structure FileItem where
  path : String
  size : Nat
deriving DecidableEq, Repr

/-- A repository together with the outcomes of its listing calls:
`commitsResult` is what `list_commits` returns (or its HTTP failure) and
`filesResult` what iterating `list_files` yields (or its HTTP failure). -/
structure RepoData where
  name : String
  defaultBranch : Option String
  commitsResult : Except String (List CommitData)
  filesResult : Except String (List FileItem)
deriving Repr

/-- A project with its repositories. -/
structure ProjectData where
  name : String
  repos : List RepoData
deriving Repr

/-- One row of `repo_language_stats.csv`. -/
structure RepoRow where
  project : String
  repository : String
  default_branch : String
  language : String
  bytes : Nat
deriving DecidableEq, Repr

/-- The mutable state of `main`'s loop: the repo-level rows, the two tenant
tallies, and the messages printed to stderr. -/
structure RunState where
  per_repo_rows : List RepoRow
  tenant_totals : Tally
  tenant_totals_code_only : Tally
  errors : List String
deriving Repr

/-- The state before any project is processed. -/
def initState : RunState := ⟨[], [], [], []⟩

/-- The optional recency filter for one repository: `none` when no since
date is configured; otherwise list the commits (an HTTP failure propagates),
use the empty set when there are none, and otherwise resolve the changed
paths of every commit (again propagating the first HTTP failure). -/
def recentPathsOf (cfg : Config) (repo : RepoData) :
    Except String (Option (List String)) :=
  if cfg.since then
    match repo.commitsResult with
    | .error e => .error e
    | .ok commits =>
      if commits.isEmpty then .ok (some [])
      else
        match commits.mapM (fun c => c.changes) with
        | .error e => .error e
        | .ok ls =>
          .ok (some (list_changed_paths_for_commits ls cfg.created_only))
  else .ok none

/-- The sentinel row for a branchless or empty repository. -/
def placeholderRow (proj repoName db : String) : RepoRow :=
  ⟨proj, repoName, db, "", 0⟩

/-- Emission of one `(language, bytes)` pair of a completed repository
tally: append the repo-level row, fold into the all-languages tenant tally,
and then evaluate the code-only guard
`(not args.exclude_non_code) or (lang not in \x7b\x7b"Markdown","CSV"\x7d\x7d)`.
When the flag is unset the right operand is short-circuited away and the
pair is folded into the code-only tally; when it is set, Python must
evaluate the right operand, whose literal is a set containing a set —
an unhashable element — so a `TypeError` is raised. -/
def emitRow (cfg : Config) (proj repoName db : String) (st : RunState)
    (lb : String × Nat) : Except String RunState :=
  if cfg.exclude_non_code then .error "TypeError: unhashable type: set"
  else
    .ok { st with
          per_repo_rows := st.per_repo_rows ++ [⟨proj, repoName, db, lb.1, lb.2⟩],
          tenant_totals := addTally st.tenant_totals lb.1 lb.2,
          tenant_totals_code_only :=
            addTally st.tenant_totals_code_only lb.1 lb.2 }

/-- The items of the file stream that are actually counted: all of them
when no filter is active, otherwise those whose path is in the filter set. -/
def countedFiles (recent : Option (List String)) (files : List FileItem) :
    List FileItem :=
  files.filter (fun it =>
    match recent with
    | none => true
    | some s => it.path ∈ s)

/-- The per-repository language tally built by the file loop. -/
def repoLangBytes (counted : List FileItem) : Tally :=
  counted.foldl (fun t it => addTally t (classify it.path) it.size) []

/-- Processing of one repository inside `main`'s loop.  A falsy default
branch short-circuits to the placeholder row.  The recency filter is built
next (its HTTP failures are uncaught and abort the run).  The file loop is
wrapped in `try/except requests.HTTPError`: its failure only logs to stderr
and moves on.  A zero byte total yields the placeholder row; otherwise each
tally pair is emitted via `emitRow`. -/
def processRepo (cfg : Config) (projName : String) (repo : RepoData)
    (st : RunState) : Except String RunState :=
  if repo.defaultBranch.getD "" = "" then
    .ok { st with
          per_repo_rows :=
            st.per_repo_rows ++ [placeholderRow projName repo.name ""] }
  else
    match recentPathsOf cfg repo with
    | .error e => .error e
    | .ok recent =>
      match repo.filesResult with
      | .error e =>
        .ok { st with
              errors := st.errors ++
                ["  ! Error listing files for " ++ projName ++ "/" ++
                  repo.name ++ ": " ++ e] }
      | .ok files =>
        if ((countedFiles recent files).map (fun it => it.size)).sum = 0 then
          .ok { st with
                per_repo_rows :=
                  st.per_repo_rows ++
                    [placeholderRow projName repo.name
                      (repo.defaultBranch.getD "")] }
        else
          (repoLangBytes (countedFiles recent files)).foldlM
            (emitRow cfg projName repo.name (repo.defaultBranch.getD "")) st

/-- One row of `tenant_language_summary.csv`. -/
structure TenantRow where
  language : String
  bytes : Nat
  percent_all_files : ℚ
deriving DecidableEq, Repr

/-- Everything `main` leaves behind after the loop: the final loop state,
the two CSV row-sets with their headers, the denominators (after the
`or 1` fallback), and the console code-only summary lines. -/
structure RunOutput where
  per_repo_rows : List RepoRow
  tenant_totals : Tally
  tenant_totals_code_only : Tally
  errors : List String
  repoCsvHeader : List String
  tenantCsvHeader : List String
  total_all : Nat
  tenantRows : List TenantRow
  total_code : Nat
  codeSummary : List (String × ℚ)
deriving DecidableEq, Repr

/-- The reporting tail of `main`: `total_all = sum(...) or 1`, tenant rows
from `most_common()` with `round(100.0 * b / total_all, 2)`, and the
code-only console lines with their unrounded shares. -/
def finishRun (st : RunState) : RunOutput :=
  let total_all := if sumTally st.tenant_totals = 0 then 1
                   else sumTally st.tenant_totals
  let rows := (sortTallyDesc st.tenant_totals).map (fun lb =>
    { language := lb.1, bytes := lb.2,
      percent_all_files :=
        round2 (100 * (lb.2 : ℚ) / (total_all : ℚ)) : TenantRow })
  let total_code := if sumTally st.tenant_totals_code_only = 0 then 1
                    else sumTally st.tenant_totals_code_only
  let summary := (sortTallyDesc st.tenant_totals_code_only).map (fun lb =>
    (lb.1, 100 * (lb.2 : ℚ) / (total_code : ℚ)))
  { per_repo_rows := st.per_repo_rows,
    tenant_totals := st.tenant_totals,
    tenant_totals_code_only := st.tenant_totals_code_only,
    errors := st.errors,
    repoCsvHeader := ["project", "repository", "default_branch",
                      "language", "bytes"],
    tenantCsvHeader := ["language", "bytes", "percent_all_files"],
    total_all := total_all,
    tenantRows := rows,
    total_code := total_code,
    codeSummary := summary }

/-- The whole aggregation run of `main` (after configuration validation):
fold every repository of every project through `processRepo`, then emit the
reports.  An uncaught exception (`.error`) aborts the run with no output. -/
def runMain (cfg : Config) (projects : List ProjectData) :
    Except String RunOutput :=
  match projects.foldlM
      (fun st pr =>
        pr.repos.foldlM (fun st2 repo => processRepo cfg pr.name repo st2) st)
      initState with
  | .error e => .error e
  | .ok st => .ok (finishRun st)

/-- Total bytes attributed to language `L` across a row list. -/
def rowsSum (rows : List RepoRow) (L : String) : Nat :=
  ((rows.filter (fun r => r.language = L)).map (fun r => r.bytes)).sum

/-- Total bytes across all rows of a row list. -/
def rowsTotal (rows : List RepoRow) : Nat :=
  (rows.map (fun r => r.bytes)).sum

/-- Extract the output of a successful run (default value otherwise). -/
def getOk (x : Except String RunOutput) : RunOutput :=
  match x with
  | .ok o => o
  | .error _ => finishRun initState

/-- The repository of the end-to-end scenario of spec §8: branch `main`,
files `a.py` (100 bytes) and `b.md` (50 bytes). -/
def demoRepo : RepoData :=
  { name := "R", defaultBranch := some "refs/heads/main",
    commitsResult := .ok [],
    filesResult := .ok [⟨"a.py", 100⟩, ⟨"b.md", 50⟩] }

/-- The project of the end-to-end scenario of spec §8. -/
def demoProject : ProjectData := { name := "P", repos := [demoRepo] }

/-- The output of the §8 scenario run with all flags off. -/
def demoOut : RunOutput := getOk (runMain ⟨false, false, false⟩ [demoProject])

/-- Commit `C1` of the recency-filter scenario: adds `a.py`. -/
def c4ChangesC1 : List Change := [⟨"add", some "a.py"⟩]

/-- Commit `C2` of the recency-filter scenario: edits `a.py`, adds `b.md`. -/
def c4ChangesC2 : List Change := [⟨"edit", some "a.py"⟩, ⟨"add", some "b.md"⟩]

/-- A repository whose commit-history listing fails with an HTTP error. -/
def c2RepoBad : RepoData :=
  { name := "R1", defaultBranch := some "refs/heads/main",
    commitsResult := .error "HTTP 500",
    filesResult := .ok [⟨"x.py", 10⟩] }

/-- A healthy sibling repository listed after `c2RepoBad`. -/
def c2RepoGood : RepoData :=
  { name := "R2", defaultBranch := some "refs/heads/main",
    commitsResult := .ok [],
    filesResult := .ok [⟨"y.py", 10⟩] }

/-- A project whose first repository fails its commit listing. -/
def c2Project : ProjectData := { name := "P", repos := [c2RepoBad, c2RepoGood] }

/-- A repository whose file-tree listing fails with an HTTP error. -/
def c2RepoFilesErr : RepoData :=
  { name := "RF", defaultBranch := some "refs/heads/main",
    commitsResult := .ok [],
    filesResult := .error "HTTP 503" }

/-- A repository with a branch, no commit since the threshold, and one
100-byte file: under a recency filter its path-set is empty. -/
def c3Repo : RepoData :=
  { name := "R", defaultBranch := some "refs/heads/main",
    commitsResult := .ok [],
    filesResult := .ok [⟨"a.py", 100⟩] }

/-- The project wrapping `c3Repo`. -/
def c3Project : ProjectData := { name := "P", repos := [c3Repo] }

/-- A branchless repository. -/
def c5RepoNoBranch : RepoData :=
  { name := "RNB", defaultBranch := none,
    commitsResult := .ok [], filesResult := .ok [] }

/-- A repository with a branch but no files. -/
def c5RepoEmpty : RepoData :=
  { name := "RE", defaultBranch := some "refs/heads/main",
    commitsResult := .ok [], filesResult := .ok [] }

/-- A repository holding a zero-byte Python file next to a 50-byte
Markdown file. -/
def c6Repo : RepoData :=
  { name := "R", defaultBranch := some "refs/heads/main",
    commitsResult := .ok [],
    filesResult := .ok [⟨"z.py", 0⟩, ⟨"b.md", 50⟩] }

/-- The project wrapping `c6Repo`. -/
def c6Project : ProjectData := { name := "P", repos := [c6Repo] }

/-- The output of the `c6Project` run. -/
def c6Out : RunOutput := getOk (runMain ⟨false, false, false⟩ [c6Project])

/-- A run whose only repository is branchless, so no byte is ever tallied. -/
def c10Out : RunOutput :=
  getOk (runMain ⟨false, false, false⟩ [⟨"P", [c5RepoNoBranch]⟩])

/-- The relation `main`'s loop maintains between the emitted repo-level
rows and the all-languages tenant tally: the tally keys are distinct
nonempty language labels, a key is present exactly when some emitted row
carries that language, its value is the byte sum of those rows, and the
tally total equals the byte total of all rows. -/
structure TallyRows (rows : List RepoRow) (t : Tally) : Prop where
  nodupKeys : (t.map (fun q => q.1)).Nodup
  keysNe : ∀ q ∈ t, q.1 ≠ ""
  lookupChar : ∀ L : String, L ≠ "" →
    lookupTally t L =
      (if rows.any (fun r => r.language = L) then some (rowsSum rows L)
       else none)
  sumChar : sumTally t = rowsTotal rows

/-- The loop invariant of `main` over the run state: the row/tally relation
holds, a non-empty tally has a positive total (every language entry comes
from a repository whose counted total was positive), and the code-only
tally is empty whenever the all-languages tally is. -/
structure RunInv (st : RunState) : Prop where
  tallyRows : TallyRows st.per_repo_rows st.tenant_totals
  posOfNe : st.tenant_totals ≠ [] → 0 < sumTally st.tenant_totals
  codeEmpty : st.tenant_totals = [] → st.tenant_totals_code_only = []

lemma mem_setInsert (s : List String) (q p : String) :
    p ∈ setInsert s q ↔ p ∈ s ∨ p = q := by
  unfold setInsert
  by_cases h : q ∈ s
  · rw [if_pos h]
    constructor
    · exact Or.inl
    · rintro (hp | rfl)
      · exact hp
      · exact h
  · rw [if_neg h]
    simp

lemma mem_applyChange_fst (a : List String × List String) (ch : Change)
    (p : String) : p ∈ (applyChange a ch).1 ↔ p ∈ a.1 ∨ isAddOf ch p := by
  unfold applyChange isAddOf
  rcases ch with ⟨t, _ | q⟩
  · simp
  · simp only [Option.some.injEq]
    by_cases hq : q = ""
    · subst hq
      rw [if_pos rfl]
      constructor
      · exact Or.inl
      · rintro (h | ⟨rfl, h2, -⟩)
        · exact h
        · exact absurd rfl h2
    · rw [if_neg hq]
      by_cases ha : lowerStr t = "add"
      · rw [if_pos ha]
        simp only [mem_setInsert]
        constructor
        · rintro (h | rfl)
          · exact Or.inl h
          · exact Or.inr ⟨rfl, hq, ha⟩
        · rintro (h | ⟨rfl, -, -⟩)
          · exact Or.inl h
          · exact Or.inr rfl
      · rw [if_neg ha]
        by_cases he : lowerStr t = "edit" ∨ lowerStr t = "rename"
        · rw [if_pos he]
          constructor
          · exact Or.inl
          · rintro (h | ⟨-, -, h3⟩)
            · exact h
            · exact absurd h3 ha
        · rw [if_neg he]
          constructor
          · exact Or.inl
          · rintro (h | ⟨-, -, h3⟩)
            · exact h
            · exact absurd h3 ha

lemma mem_applyChange_snd (a : List String × List String) (ch : Change)
    (p : String) : p ∈ (applyChange a ch).2 ↔ p ∈ a.2 ∨ isTouchOf ch p := by
  unfold applyChange isTouchOf
  rcases ch with ⟨t, _ | q⟩
  · simp
  · simp only [Option.some.injEq]
    by_cases hq : q = ""
    · subst hq
      rw [if_pos rfl]
      constructor
      · exact Or.inl
      · rintro (h | ⟨rfl, h2, -⟩)
        · exact h
        · exact absurd rfl h2
    · rw [if_neg hq]
      by_cases ha : lowerStr t = "add"
      · rw [if_pos ha]
        simp only [mem_setInsert]
        constructor
        · rintro (h | rfl)
          · exact Or.inl h
          · exact Or.inr ⟨rfl, hq, Or.inl ha⟩
        · rintro (h | ⟨rfl, -, -⟩)
          · exact Or.inl h
          · exact Or.inr rfl
      · rw [if_neg ha]
        by_cases he : lowerStr t = "edit" ∨ lowerStr t = "rename"
        · rw [if_pos he]
          simp only [mem_setInsert]
          constructor
          · rintro (h | rfl)
            · exact Or.inl h
            · refine Or.inr ⟨rfl, hq, ?_⟩
              rcases he with he | he
              · exact Or.inr (Or.inl he)
              · exact Or.inr (Or.inr he)
          · rintro (h | ⟨rfl, -, -⟩)
            · exact Or.inl h
            · exact Or.inr rfl
        · rw [if_neg he]
          constructor
          · exact Or.inl
          · rintro (h | ⟨-, -, (h3 | h3 | h3)⟩)
            · exact h
            · exact absurd h3 ha
            · exact absurd (Or.inl h3) he
            · exact absurd (Or.inr h3) he

lemma mem_foldl_applyChange_fst (cs : List Change) :
    ∀ (a : List String × List String) (p : String),
      p ∈ (cs.foldl applyChange a).1 ↔ p ∈ a.1 ∨ ∃ ch ∈ cs, isAddOf ch p := by
  induction cs with
  | nil => simp
  | cons c cs ih =>
    intro a p
    rw [List.foldl_cons, ih, mem_applyChange_fst]
    simp only [List.exists_mem_cons_iff, or_assoc]

lemma mem_foldl_applyChange_snd (cs : List Change) :
    ∀ (a : List String × List String) (p : String),
      p ∈ (cs.foldl applyChange a).2 ↔ p ∈ a.2 ∨ ∃ ch ∈ cs, isTouchOf ch p := by
  induction cs with
  | nil => simp
  | cons c cs ih =>
    intro a p
    rw [List.foldl_cons, ih, mem_applyChange_snd]
    simp only [List.exists_mem_cons_iff, or_assoc]

lemma mem_commits_fold_fst (commits : List (List Change)) :
    ∀ (a : List String × List String) (p : String),
      p ∈ (commits.foldl (fun a cs => cs.foldl applyChange a) a).1 ↔
        p ∈ a.1 ∨ ∃ cs ∈ commits, ∃ ch ∈ cs, isAddOf ch p := by
  induction commits with
  | nil => simp
  | cons c cs ih =>
    intro a p
    rw [List.foldl_cons, ih, mem_foldl_applyChange_fst]
    simp only [List.exists_mem_cons_iff, or_assoc]

lemma mem_commits_fold_snd (commits : List (List Change)) :
    ∀ (a : List String × List String) (p : String),
      p ∈ (commits.foldl (fun a cs => cs.foldl applyChange a) a).2 ↔
        p ∈ a.2 ∨ ∃ cs ∈ commits, ∃ ch ∈ cs, isTouchOf ch p := by
  induction commits with
  | nil => simp
  | cons c cs ih =>
    intro a p
    rw [List.foldl_cons, ih, mem_foldl_applyChange_snd]
    simp only [List.exists_mem_cons_iff, or_assoc]

/-- **C4.** `list_changed_paths_for_commits` has set-union semantics: with
`created_only = true` a path is in the result exactly when some commit in
the window records an `add` for it, and with `created_only = false` exactly
when some commit records an `add`, `edit` or `rename` for it (a path added
in one commit and edited in a later one therefore still counts as created,
not last-write-wins).  Concretely, for commits `C1` (adds `a.py`) and `C2`
(edits `a.py`, adds `b.md`) both modes yield the path-set `a.py, b.md`,
while `C2` alone with `created_only = true` yields only `b.md` (path sets
are represented as duplicate-free lists in insertion order). -/
theorem changed_paths_union_semantics :
    (∀ (commits : List (List Change)) (p : String),
      (p ∈ list_changed_paths_for_commits commits true ↔
        ∃ cs ∈ commits, ∃ ch ∈ cs, isAddOf ch p)
      ∧ (p ∈ list_changed_paths_for_commits commits false ↔
        ∃ cs ∈ commits, ∃ ch ∈ cs, isTouchOf ch p))
    ∧ list_changed_paths_for_commits [c4ChangesC1, c4ChangesC2] true
        = ["a.py", "b.md"]
    ∧ list_changed_paths_for_commits [c4ChangesC1, c4ChangesC2] false
        = ["a.py", "b.md"]
    ∧ list_changed_paths_for_commits [c4ChangesC2] true = ["b.md"] := by
  refine ⟨fun commits p => ⟨?_, ?_⟩, by decide, by decide, by decide⟩
  · unfold list_changed_paths_for_commits
    rw [if_pos rfl, mem_commits_fold_fst]
    simp
  · unfold list_changed_paths_for_commits
    rw [if_neg (by decide), mem_commits_fold_snd]
    simp

lemma afterLast_eq (sep : Char) (l : List Char) :
    afterLast sep l = (l.reverse.takeWhile (fun c => c ≠ sep)).reverse := by
  induction l using List.reverseRecOn with
  | nil => rfl
  | append_singleton l c ih =>
    unfold afterLast at ih ⊢
    rw [List.foldl_append, List.foldl_cons, List.foldl_nil,
        List.reverse_append, List.reverse_singleton, List.singleton_append,
        List.takeWhile_cons]
    by_cases hc : c = sep
    · subst hc
      simp
    · simp [hc, ih]

/-- **C9.** The language classifier is a pure total function on path
strings: the extension computed by `ext_from_path` agrees on every path
with the spec's description (the lower-cased substring after the last dot
of the final slash-separated segment, empty when that segment has no dot),
the language is the static table's entry for the extension with `"Other"`
for unmapped or empty extensions, and in particular `src/app/main.py`
classifies as Python, `README` as Other, and `archive.tar.gz` as Other. -/
theorem classifier_pure_extension_lookup :
    (∀ p : String, ext_from_path p = ext_spec p)
    ∧ (∀ e : String, EXT_TO_LANG.lookup e = none → lang_from_ext e = "Other")
    ∧ classify "src/app/main.py" = "Python"
    ∧ classify "README" = "Other"
    ∧ classify "archive.tar.gz" = "Other" := by
  refine ⟨fun p => ?_, fun e he => ?_, by decide, by decide, by decide⟩
  · unfold ext_from_path ext_spec
    simp only [afterLast_eq]
  · unfold lang_from_ext
    rw [he]
    rfl

lemma recentPathsOf_noFilter (cfg : Config) (repo : RepoData)
    (h : cfg.since = false) : recentPathsOf cfg repo = .ok none := by
  simp [recentPathsOf, h]

lemma recentPathsOf_emptyCommits (cfg : Config) (repo : RepoData)
    (hs : cfg.since = true) (hc : repo.commitsResult = .ok []) :
    recentPathsOf cfg repo = .ok (some []) := by
  simp [recentPathsOf, hs, hc]

lemma processRepo_noBranch (cfg : Config) (pj : String) (repo : RepoData)
    (st : RunState) (h : repo.defaultBranch.getD "" = "") :
    processRepo cfg pj repo st =
      .ok { st with per_repo_rows :=
              st.per_repo_rows ++ [placeholderRow pj repo.name ""] } := by
  unfold processRepo
  rw [if_pos h]

lemma processRepo_recentErr (cfg : Config) (pj : String) (repo : RepoData)
    (st : RunState) (e : String)
    (hdb : repo.defaultBranch.getD "" ≠ "")
    (hrec : recentPathsOf cfg repo = .error e) :
    processRepo cfg pj repo st = .error e := by
  unfold processRepo
  rw [if_neg hdb, hrec]

lemma processRepo_filesErr (cfg : Config) (pj : String) (repo : RepoData)
    (st : RunState) (recent : Option (List String)) (e : String)
    (hdb : repo.defaultBranch.getD "" ≠ "")
    (hrec : recentPathsOf cfg repo = .ok recent)
    (hfiles : repo.filesResult = .error e) :
    processRepo cfg pj repo st =
      .ok { st with errors := st.errors ++
              ["  ! Error listing files for " ++ pj ++ "/" ++
                repo.name ++ ": " ++ e] } := by
  unfold processRepo
  rw [if_neg hdb, hrec, hfiles]

lemma processRepo_zeroTotal (cfg : Config) (pj : String) (repo : RepoData)
    (st : RunState) (recent : Option (List String)) (files : List FileItem)
    (hdb : repo.defaultBranch.getD "" ≠ "")
    (hrec : recentPathsOf cfg repo = .ok recent)
    (hfiles : repo.filesResult = .ok files)
    (hzero : ((countedFiles recent files).map (fun it => it.size)).sum = 0) :
    processRepo cfg pj repo st =
      .ok { st with per_repo_rows := st.per_repo_rows ++
              [placeholderRow pj repo.name (repo.defaultBranch.getD "")] } := by
  unfold processRepo
  rw [if_neg hdb, hrec, hfiles]
  exact if_pos hzero

lemma processRepo_posTotal (cfg : Config) (pj : String) (repo : RepoData)
    (st : RunState) (recent : Option (List String)) (files : List FileItem)
    (hdb : repo.defaultBranch.getD "" ≠ "")
    (hrec : recentPathsOf cfg repo = .ok recent)
    (hfiles : repo.filesResult = .ok files)
    (hpos : ((countedFiles recent files).map (fun it => it.size)).sum ≠ 0) :
    processRepo cfg pj repo st =
      (repoLangBytes (countedFiles recent files)).foldlM
        (emitRow cfg pj repo.name (repo.defaultBranch.getD "")) st := by
  unfold processRepo
  rw [if_neg hdb, hrec, hfiles]
  exact if_neg hpos

lemma countedFiles_nil_of_disjoint (s : List String) (files : List FileItem)
    (h : ∀ it ∈ files, it.path ∉ s) : countedFiles (some s) files = [] := by
  unfold countedFiles
  induction files with
  | nil => rfl
  | cons f fs ih =>
    have hf : f.path ∉ s := h f (List.mem_cons_self f fs)
    rw [List.filter_cons]
    simp only [hf, decide_eq_false]
    exact ih (fun it hit => h it (List.mem_cons_of_mem f hit))

/-- **C5.** A repository with no default-branch reference yields exactly one
placeholder row (empty language, zero bytes, empty branch) appended to the
repo-level rows with every other component of the run state — in particular
both tenant tallies — unchanged; and a repository with a branch whose
post-filter byte total is zero yields exactly the same single placeholder
row (carrying its branch ref) with, again, no update to either tally. -/
theorem placeholder_rows_no_tally_update :
    (∀ (cfg : Config) (pj : String) (repo : RepoData) (st : RunState),
      repo.defaultBranch.getD "" = "" →
      processRepo cfg pj repo st =
        .ok { st with per_repo_rows :=
                st.per_repo_rows ++ [placeholderRow pj repo.name ""] })
    ∧ (∀ (cfg : Config) (pj : String) (repo : RepoData) (st : RunState)
        (recent : Option (List String)) (files : List FileItem),
      repo.defaultBranch.getD "" ≠ "" →
      recentPathsOf cfg repo = .ok recent →
      repo.filesResult = .ok files →
      ((countedFiles recent files).map (fun it => it.size)).sum = 0 →
      processRepo cfg pj repo st =
        .ok { st with per_repo_rows := st.per_repo_rows ++
                [placeholderRow pj repo.name (repo.defaultBranch.getD "")] }) :=
  ⟨fun cfg pj repo st h => processRepo_noBranch cfg pj repo st h,
   fun cfg pj repo st recent files hdb hrec hfiles hzero =>
     processRepo_zeroTotal cfg pj repo st recent files hdb hrec hfiles hzero⟩

/-- Witness for C5: a branchless repository and an empty repository, both
processed from the initial state. -/
theorem placeholder_rows_no_tally_update_witness :
    processRepo ⟨false, false, false⟩ "P" c5RepoNoBranch initState =
      .ok { initState with per_repo_rows := [placeholderRow "P" "RNB" ""] } ∧
    processRepo ⟨false, false, false⟩ "P" c5RepoEmpty initState =
      .ok { initState with
            per_repo_rows := [placeholderRow "P" "RE" "refs/heads/main"] } :=
  ⟨placeholder_rows_no_tally_update.1 ⟨false, false, false⟩ "P"
      c5RepoNoBranch initState rfl,
   placeholder_rows_no_tally_update.2 ⟨false, false, false⟩ "P"
      c5RepoEmpty initState none [] (by decide) rfl rfl rfl⟩

/-- **C2 counterexample.** An HTTP failure of the commit-history listing of
the first repository is not caught: the whole run aborts with that error
(no output at all, no processing of the sibling repository `R2`), instead
of logging and continuing as the claim states. -/
theorem commit_listing_failure_aborts_run :
    runMain ⟨true, false, false⟩ [c2Project] = .error "HTTP 500" := by
  rfl

/-- **C2 amended.** Only the file-tree listing is guarded: an HTTP failure
while streaming `list_files` abandons just that repository — the error
message carrying the project and repository names is appended to the
diagnostic stream, no rows and no tally updates are produced for it, and
the surrounding fold continues with the next repository.  An HTTP failure
of the commit-history listing or of a per-commit changed-paths request,
by contrast, propagates out of the repository loop and aborts the run. -/
theorem http_failure_repo_scope :
    (∀ (cfg : Config) (pj : String) (repo : RepoData) (st : RunState)
        (recent : Option (List String)) (e : String),
      repo.defaultBranch.getD "" ≠ "" →
      recentPathsOf cfg repo = .ok recent →
      repo.filesResult = .error e →
      processRepo cfg pj repo st =
        .ok { st with errors := st.errors ++
                ["  ! Error listing files for " ++ pj ++ "/" ++
                  repo.name ++ ": " ++ e] })
    ∧ (∀ (cfg : Config) (pj : String) (repo : RepoData) (st : RunState)
        (e : String),
      repo.defaultBranch.getD "" ≠ "" →
      recentPathsOf cfg repo = .error e →
      processRepo cfg pj repo st = .error e) :=
  ⟨fun cfg pj repo st recent e hdb hrec hfiles =>
      processRepo_filesErr cfg pj repo st recent e hdb hrec hfiles,
   fun cfg pj repo st e hdb hrec =>
      processRepo_recentErr cfg pj repo st e hdb hrec⟩

/-- Witness for the amended C2: a concrete file-listing failure is logged
and processing goes on; a concrete commit-listing failure propagates. -/
theorem http_failure_repo_scope_witness :
    processRepo ⟨false, false, false⟩ "P" c2RepoFilesErr initState =
      .ok { initState with
            errors := ["  ! Error listing files for P/RF: HTTP 503"] } ∧
    processRepo ⟨true, false, false⟩ "P" c2RepoBad initState =
      .error "HTTP 500" :=
  ⟨http_failure_repo_scope.1 ⟨false, false, false⟩ "P" c2RepoFilesErr
      initState none "HTTP 503" (by decide) rfl rfl,
   http_failure_repo_scope.2 ⟨true, false, false⟩ "P" c2RepoBad initState
      "HTTP 500" (by decide) rfl⟩

/-- **C3 counterexample.** A repository with an active recency filter that
matches zero files (zero commits since the threshold, hence the empty
path-set) still emits the zero-byte placeholder row: the whole repo-level
report of this run is exactly that placeholder, contradicting the claim
that the placeholder is never emitted in this branch. -/
theorem empty_filter_still_emits_placeholder :
    recentPathsOf ⟨true, false, false⟩ c3Repo = .ok (some []) ∧
    (runMain ⟨true, false, false⟩ [c3Project]).map
        (fun o => o.per_repo_rows) =
      .ok [placeholderRow "P" "R" "refs/heads/main"] := by
  exact ⟨rfl, rfl⟩

/-- **C3 amended.** With an active recency filter, zero commits since the
threshold produce the empty path-set (not `None`); and whenever the filter
path-set matches none of the repository's files, the repository contributes
no language rows and no tally update — but it does emit the single
zero-byte placeholder row (the same placeholder as the branchless case). -/
theorem empty_filter_contributes_placeholder_only :
    (∀ (cfg : Config) (repo : RepoData),
      cfg.since = true → repo.commitsResult = .ok [] →
      recentPathsOf cfg repo = .ok (some []))
    ∧ (∀ (cfg : Config) (pj : String) (repo : RepoData) (st : RunState)
        (s : List String) (files : List FileItem),
      cfg.since = true →
      repo.defaultBranch.getD "" ≠ "" →
      recentPathsOf cfg repo = .ok (some s) →
      repo.filesResult = .ok files →
      (∀ it ∈ files, it.path ∉ s) →
      processRepo cfg pj repo st =
        .ok { st with per_repo_rows := st.per_repo_rows ++
                [placeholderRow pj repo.name (repo.defaultBranch.getD "")] }) := by
  constructor
  · exact fun cfg repo hs hc => recentPathsOf_emptyCommits cfg repo hs hc
  · intro cfg pj repo st s files _ hdb hrec hfiles hdisj
    refine processRepo_zeroTotal cfg pj repo st (some s) files hdb hrec hfiles ?_
    rw [countedFiles_nil_of_disjoint s files hdisj]
    rfl

/-- Witness for the amended C3: the concrete repository `c3Repo` under an
active filter with no recent commits. -/
theorem empty_filter_contributes_placeholder_only_witness :
    recentPathsOf ⟨true, false, false⟩ c3Repo = .ok (some []) ∧
    processRepo ⟨true, false, false⟩ "P" c3Repo initState =
      .ok { initState with
            per_repo_rows := [placeholderRow "P" "R" "refs/heads/main"] } :=
  ⟨empty_filter_contributes_placeholder_only.1 ⟨true, false, false⟩ c3Repo
      rfl rfl,
   empty_filter_contributes_placeholder_only.2 ⟨true, false, false⟩ "P"
      c3Repo initState [] [⟨"a.py", 100⟩] rfl (by decide) rfl rfl
      (by intro it hit; simp)⟩

/-- **C1 (code bug).** The code-only guard of `main` is
`(not args.exclude_non_code) or (lang not in \x7b\x7b"Markdown","CSV"\x7d\x7d)`:
with the flag unset the right operand is never evaluated and every row is
folded into the code-only tally (so on the §8 scenario both languages
appear in the console summary, against the 150-byte combined total); but
with the flag set Python must evaluate the right operand, whose literal is
a set containing a set — unhashable — so the run dies with a `TypeError`
instead of excluding Markdown/CSV as the claim (and the unused
`NON_CODE_LANGS` constant, and the flag's own help text) intend. -/
theorem exclude_non_code_flag_raises_typeerror :
    runMain ⟨false, false, true⟩ [demoProject] =
      .error "TypeError: unhashable type: set" ∧
    (runMain ⟨false, false, false⟩ [demoProject]).map
        (fun o => o.codeSummary) =
      .ok [("Python", 200 / 3), ("Markdown", 100 / 3)] ∧
    (runMain ⟨false, false, false⟩ [demoProject]).map
        (fun o => o.tenant_totals_code_only) =
      .ok [("Python", 100), ("Markdown", 50)] := by
  refine ⟨rfl, ?_, rfl⟩
  have e1 : (runMain ⟨false, false, false⟩ [demoProject]).map
      (fun o => o.codeSummary) =
      .ok [("Python", 100 * ((100 : Nat) : ℚ) / ((150 : Nat) : ℚ)),
           ("Markdown", 100 * ((50 : Nat) : ℚ) / ((150 : Nat) : ℚ))] := rfl
  rw [e1]
  simp only [Except.ok.injEq, List.cons.injEq, Prod.mk.injEq, and_true]
  norm_num

lemma addTally_ne_nil (t : Tally) (lang : String) (b : Nat) :
    addTally t lang b ≠ [] := by
  cases t with
  | nil => simp [addTally]
  | cons q t =>
    unfold addTally
    by_cases h : q.1 = lang
    · rw [if_pos h]
      simp
    · rw [if_neg h]
      simp

lemma mem_addTally (t : Tally) (lang : String) (b : Nat) (q : String × Nat)
    (h : q ∈ addTally t lang b) : q ∈ t ∨ q.1 = lang := by
  induction t with
  | nil =>
    simp only [addTally, List.mem_singleton] at h
    right
    rw [h]
  | cons r t ih =>
    unfold addTally at h
    by_cases hr : r.1 = lang
    · rw [if_pos hr] at h
      rcases List.mem_cons.mp h with h | h
      · right
        rw [h, ← hr]
      · exact Or.inl (List.mem_cons_of_mem r h)
    · rw [if_neg hr] at h
      rcases List.mem_cons.mp h with h | h
      · exact Or.inl (h ▸ List.mem_cons_self r t)
      · rcases ih h with h | h
        · exact Or.inl (List.mem_cons_of_mem r h)
        · exact Or.inr h

lemma keys_addTally_sub (t : Tally) (lang : String) (b : Nat) (k : String)
    (h : k ∈ (addTally t lang b).map (fun q => q.1)) :
    k ∈ t.map (fun q => q.1) ∨ k = lang := by
  rcases List.mem_map.mp h with ⟨q, hq, hk⟩
  rcases mem_addTally t lang b q hq with h1 | h1
  · exact Or.inl (hk ▸ List.mem_map_of_mem _ h1)
  · exact Or.inr (hk ▸ h1)

lemma nodup_keys_addTally (t : Tally) (lang : String) (b : Nat)
    (h : (t.map (fun q => q.1)).Nodup) :
    ((addTally t lang b).map (fun q => q.1)).Nodup := by
  induction t with
  | nil => simp [addTally]
  | cons r t ih =>
    rw [List.map_cons, List.nodup_cons] at h
    unfold addTally
    by_cases hr : r.1 = lang
    · rw [if_pos hr]
      rw [List.map_cons, List.nodup_cons]
      exact h
    · rw [if_neg hr]
      rw [List.map_cons, List.nodup_cons]
      refine ⟨?_, ih h.2⟩
      intro hmem
      rcases keys_addTally_sub t lang b r.1 hmem with h1 | h1
      · exact h.1 h1
      · exact hr h1

lemma lookupTally_cons (q : String × Nat) (t : Tally) (L : String) :
    lookupTally (q :: t) L =
      if q.1 = L then some q.2 else lookupTally t L := by
  unfold lookupTally
  rw [List.find?_cons]
  by_cases h : q.1 = L
  · simp [h]
  · simp [h]

lemma lookupTally_addTally_self (t : Tally) (lang : String) (b : Nat) :
    lookupTally (addTally t lang b) lang =
      some ((lookupTally t lang).getD 0 + b) := by
  induction t with
  | nil =>
    show lookupTally [(lang, b)] lang = _
    rw [lookupTally_cons]
    simp [lookupTally, List.find?_nil]
  | cons q t ih =>
    unfold addTally
    by_cases hq : q.1 = lang
    · rw [if_pos hq, lookupTally_cons, if_pos hq, lookupTally_cons,
          if_pos hq]
      rfl
    · rw [if_neg hq, lookupTally_cons, if_neg hq, lookupTally_cons,
          if_neg hq]
      exact ih

lemma lookupTally_addTally_ne (t : Tally) (lang : String) (b : Nat)
    (M : String) (h : M ≠ lang) :
    lookupTally (addTally t lang b) M = lookupTally t M := by
  induction t with
  | nil =>
    show lookupTally [(lang, b)] M = _
    rw [lookupTally_cons, if_neg (fun hc => h hc.symm)]
  | cons q t ih =>
    unfold addTally
    by_cases hq : q.1 = lang
    · rw [if_pos hq, lookupTally_cons, lookupTally_cons]
      by_cases hM : q.1 = M
      · exact absurd (hM.symm.trans hq) h
      · rw [if_neg hM, if_neg hM]
    · rw [if_neg hq, lookupTally_cons, lookupTally_cons]
      by_cases hM : q.1 = M
      · rw [if_pos hM, if_pos hM]
      · rw [if_neg hM, if_neg hM]
        exact ih

lemma sumTally_addTally (t : Tally) (lang : String) (b : Nat) :
    sumTally (addTally t lang b) = sumTally t + b := by
  induction t with
  | nil => simp [addTally, sumTally]
  | cons q t ih =>
    unfold addTally
    by_cases hq : q.1 = lang
    · rw [if_pos hq]
      simp only [sumTally, List.map_cons, List.sum_cons]
      omega
    · rw [if_neg hq]
      simp only [sumTally, List.map_cons, List.sum_cons] at ih ⊢
      omega

lemma foldlM_emitRow_ok (cfg : Config) (pj rn db : String)
    (h : cfg.exclude_non_code = false) :
    ∀ (lbs : Tally) (st : RunState),
      lbs.foldlM (emitRow cfg pj rn db) st =
        .ok { per_repo_rows := st.per_repo_rows ++
                lbs.map (fun lb => ⟨pj, rn, db, lb.1, lb.2⟩),
              tenant_totals :=
                lbs.foldl (fun t lb => addTally t lb.1 lb.2) st.tenant_totals,
              tenant_totals_code_only :=
                lbs.foldl (fun t lb => addTally t lb.1 lb.2)
                  st.tenant_totals_code_only,
              errors := st.errors } := by
  intro lbs
  induction lbs with
  | nil =>
    intro st
    rw [List.foldlM_nil]
    simp only [List.map_nil, List.append_nil, List.foldl_nil]
    rfl
  | cons lb lbs ih =>
    intro st
    rw [List.foldlM_cons]
    have he : emitRow cfg pj rn db st lb =
        .ok { st with
              per_repo_rows :=
                st.per_repo_rows ++ [⟨pj, rn, db, lb.1, lb.2⟩],
              tenant_totals := addTally st.tenant_totals lb.1 lb.2,
              tenant_totals_code_only :=
                addTally st.tenant_totals_code_only lb.1 lb.2 } := by
      unfold emitRow
      rw [if_neg (by rw [h]; exact Bool.false_ne_true)]
    rw [he]
    have hbind :
        ((Except.ok { st with
              per_repo_rows :=
                st.per_repo_rows ++ [⟨pj, rn, db, lb.1, lb.2⟩],
              tenant_totals := addTally st.tenant_totals lb.1 lb.2,
              tenant_totals_code_only :=
                addTally st.tenant_totals_code_only lb.1 lb.2 } :
            Except String RunState) >>=
          fun b2 => lbs.foldlM (emitRow cfg pj rn db) b2) =
        lbs.foldlM (emitRow cfg pj rn db)
          { st with
            per_repo_rows :=
              st.per_repo_rows ++ [⟨pj, rn, db, lb.1, lb.2⟩],
            tenant_totals := addTally st.tenant_totals lb.1 lb.2,
            tenant_totals_code_only :=
              addTally st.tenant_totals_code_only lb.1 lb.2 } := rfl
    rw [hbind, ih]
    simp [List.append_assoc]

lemma foldlM_emitRow_err (cfg : Config) (pj rn db : String)
    (h : cfg.exclude_non_code = true) (lb : String × Nat) (lbs : Tally)
    (st : RunState) :
    (lb :: lbs).foldlM (emitRow cfg pj rn db) st =
      .error "TypeError: unhashable type: set" := by
  rw [List.foldlM_cons]
  have he : emitRow cfg pj rn db st lb =
      .error "TypeError: unhashable type: set" := by
    unfold emitRow
    rw [if_pos h]
  rw [he]
  rfl

lemma rowsSum_append (rows : List RepoRow) (r : RepoRow) (L : String) :
    rowsSum (rows ++ [r]) L =
      rowsSum rows L + (if r.language = L then r.bytes else 0) := by
  unfold rowsSum
  rw [List.filter_append]
  by_cases h : r.language = L
  · simp [h]
  · simp [h]

lemma rowsTotal_append (rows : List RepoRow) (r : RepoRow) :
    rowsTotal (rows ++ [r]) = rowsTotal rows + r.bytes := by
  unfold rowsTotal
  simp

lemma any_append_singleton (rows : List RepoRow) (r : RepoRow) (L : String) :
    (rows ++ [r]).any (fun x => x.language = L) =
      (rows.any (fun x => x.language = L) || decide (r.language = L)) := by
  rw [List.any_append]
  simp

lemma rowsSum_zero_of_not_any (rows : List RepoRow) (L : String)
    (h : ¬rows.any (fun x => x.language = L) = true) :
    rowsSum rows L = 0 := by
  unfold rowsSum
  have hnil : rows.filter (fun x => x.language = L) = [] := by
    rw [List.filter_eq_nil_iff]
    intro a ha
    intro hc
    exact h (List.any_eq_true.mpr ⟨a, ha, hc⟩)
  rw [hnil]
  rfl

lemma TallyRows_placeholder (rows : List RepoRow) (t : Tally)
    (htr : TallyRows rows t) (pj rn db : String) :
    TallyRows (rows ++ [placeholderRow pj rn db]) t := by
  refine ⟨htr.nodupKeys, htr.keysNe, ?_, ?_⟩
  · intro L hL
    have hne : ¬((placeholderRow pj rn db).language = L) := by
      intro hc
      exact hL (by simpa [placeholderRow] using hc.symm)
    rw [any_append_singleton, decide_eq_false hne, Bool.or_false,
        rowsSum_append, if_neg hne, Nat.add_zero]
    exact htr.lookupChar L hL
  · rw [rowsTotal_append]
    have hb : (placeholderRow pj rn db).bytes = 0 := rfl
    rw [hb, Nat.add_zero]
    exact htr.sumChar

lemma TallyRows_emit (rows : List RepoRow) (t : Tally)
    (htr : TallyRows rows t) (pj rn db L : String) (b : Nat) (hL : L ≠ "") :
    TallyRows (rows ++ [⟨pj, rn, db, L, b⟩]) (addTally t L b) := by
  refine ⟨nodup_keys_addTally t L b htr.nodupKeys, ?_, ?_, ?_⟩
  · intro q hq
    rcases mem_addTally t L b q hq with h | h
    · exact htr.keysNe q h
    · rw [h]
      exact hL
  · intro M hM
    by_cases hML : M = L
    · subst hML
      have hrow : ((⟨pj, rn, db, M, b⟩ : RepoRow).language = M) := rfl
      have hany2 : (rows ++ [(⟨pj, rn, db, M, b⟩ : RepoRow)]).any
          (fun x => x.language = M) = true := by
        rw [any_append_singleton, decide_eq_true hrow, Bool.or_true]
      by_cases hany : rows.any (fun x => x.language = M) = true
      · have hl : lookupTally t M = some (rowsSum rows M) := by
          rw [htr.lookupChar M hM, if_pos hany]
        rw [lookupTally_addTally_self, hl, if_pos hany2, rowsSum_append,
            if_pos hrow]
        rfl
      · have hl : lookupTally t M = none := by
          rw [htr.lookupChar M hM, if_neg hany]
        rw [lookupTally_addTally_self, hl, if_pos hany2, rowsSum_append,
            if_pos hrow, rowsSum_zero_of_not_any rows M hany]
        rfl
    · have hrowne : ¬((⟨pj, rn, db, L, b⟩ : RepoRow).language = M) := by
        intro hc
        exact hML (hc.symm)
      rw [lookupTally_addTally_ne t L b M hML, any_append_singleton,
          decide_eq_false hrowne, Bool.or_false, rowsSum_append,
          if_neg hrowne, Nat.add_zero]
      exact htr.lookupChar M hM
  · rw [sumTally_addTally, rowsTotal_append, htr.sumChar]

lemma TallyRows_fold (pj rn db : String) :
    ∀ (lbs : Tally) (rows : List RepoRow) (t : Tally),
      TallyRows rows t → (∀ q ∈ lbs, q.1 ≠ "") →
      TallyRows (rows ++ lbs.map (fun lb => ⟨pj, rn, db, lb.1, lb.2⟩))
        (lbs.foldl (fun t2 lb => addTally t2 lb.1 lb.2) t) := by
  intro lbs
  induction lbs with
  | nil =>
    intro rows t htr _
    simpa using htr
  | cons lb lbs ih =>
    intro rows t htr hne
    rw [List.map_cons, List.foldl_cons]
    have h1 := TallyRows_emit rows t htr pj rn db lb.1 lb.2
      (hne lb (List.mem_cons_self lb lbs))
    have h2 := ih (rows ++ [(⟨pj, rn, db, lb.1, lb.2⟩ : RepoRow)])
      (addTally t lb.1 lb.2) h1
      (fun q hq => hne q (List.mem_cons_of_mem lb hq))
    have hassoc :
        rows ++ (⟨pj, rn, db, lb.1, lb.2⟩ : RepoRow) ::
            lbs.map (fun lb => ⟨pj, rn, db, lb.1, lb.2⟩) =
          (rows ++ [(⟨pj, rn, db, lb.1, lb.2⟩ : RepoRow)]) ++
            lbs.map (fun lb => ⟨pj, rn, db, lb.1, lb.2⟩) := by
      simp
    rw [hassoc]
    exact h2

lemma sumTally_foldl (lbs : Tally) :
    ∀ t : Tally,
      sumTally (lbs.foldl (fun t2 lb => addTally t2 lb.1 lb.2) t) =
        sumTally t + sumTally lbs := by
  induction lbs with
  | nil =>
    intro t
    simp [sumTally]
  | cons lb lbs ih =>
    intro t
    rw [List.foldl_cons, ih, sumTally_addTally]
    simp only [sumTally, List.map_cons, List.sum_cons]
    omega

lemma foldl_addTally_ne_nil_aux :
    ∀ (lbs : Tally) (t : Tally), t ≠ [] →
      lbs.foldl (fun t2 lb => addTally t2 lb.1 lb.2) t ≠ [] := by
  intro lbs
  induction lbs with
  | nil =>
    intro t ht
    simpa using ht
  | cons lb lbs ih =>
    intro t _
    rw [List.foldl_cons]
    exact ih _ (addTally_ne_nil t lb.1 lb.2)

lemma foldl_addTally_ne_nil (lbs : Tally) (t : Tally) (h : lbs ≠ []) :
    lbs.foldl (fun t2 lb => addTally t2 lb.1 lb.2) t ≠ [] := by
  cases lbs with
  | nil => exact absurd rfl h
  | cons lb lbs =>
    rw [List.foldl_cons]
    exact foldl_addTally_ne_nil_aux lbs _ (addTally_ne_nil t lb.1 lb.2)

lemma sumTally_repoLangBytes_aux :
    ∀ (files : List FileItem) (t : Tally),
      sumTally (files.foldl
          (fun t2 it => addTally t2 (classify it.path) it.size) t) =
        sumTally t + (files.map (fun it => it.size)).sum := by
  intro files
  induction files with
  | nil =>
    intro t
    simp
  | cons f fs ih =>
    intro t
    rw [List.foldl_cons, ih, sumTally_addTally]
    simp only [List.map_cons, List.sum_cons]
    omega

lemma sumTally_repoLangBytes (files : List FileItem) :
    sumTally (repoLangBytes files) = (files.map (fun it => it.size)).sum := by
  unfold repoLangBytes
  rw [sumTally_repoLangBytes_aux]
  simp [sumTally]

lemma lookup_values_ne_empty :
    ∀ (l : List (String × String)), (∀ kv ∈ l, kv.2 ≠ "") →
      ∀ e v : String, l.lookup e = some v → v ≠ "" := by
  intro l
  induction l with
  | nil =>
    intro _ e v h
    simp [List.lookup] at h
  | cons kv l ih =>
    intro hall e v h
    rcases kv with ⟨k, b⟩
    rw [List.lookup] at h
    by_cases hek : e == k
    · simp only [hek] at h
      injection h with h
      rw [← h]
      exact hall (k, b) (List.mem_cons_self (k, b) l)
    · rw [Bool.not_eq_true] at hek
      simp only [hek] at h
      exact ih (fun q hq => hall q (List.mem_cons_of_mem (k, b) hq)) e v h

lemma lang_from_ext_ne_empty (e : String) : lang_from_ext e ≠ "" := by
  unfold lang_from_ext
  cases h : EXT_TO_LANG.lookup e with
  | none => simp
  | some v =>
    simp only [Option.getD_some]
    exact lookup_values_ne_empty EXT_TO_LANG (by decide) e v h

lemma classify_ne_empty (p : String) : classify p ≠ "" :=
  lang_from_ext_ne_empty (ext_from_path p)

lemma repoLangBytes_keys_ne_aux :
    ∀ (files : List FileItem) (t : Tally), (∀ q ∈ t, q.1 ≠ "") →
      ∀ q ∈ files.foldl
          (fun t2 it => addTally t2 (classify it.path) it.size) t,
        q.1 ≠ "" := by
  intro files
  induction files with
  | nil =>
    intro t ht
    simpa using ht
  | cons f fs ih =>
    intro t ht
    rw [List.foldl_cons]
    refine ih _ ?_
    intro q hq
    rcases mem_addTally _ _ _ q hq with h | h
    · exact ht q h
    · rw [h]
      exact classify_ne_empty f.path

lemma repoLangBytes_keys_ne (files : List FileItem) :
    ∀ q ∈ repoLangBytes files, q.1 ≠ "" := by
  unfold repoLangBytes
  exact repoLangBytes_keys_ne_aux files [] (by simp)

lemma runInv_processRepo (cfg : Config) (pj : String) (repo : RepoData)
    (st st2 : RunState) (hInv : RunInv st)
    (h : processRepo cfg pj repo st = .ok st2) : RunInv st2 := by
  by_cases hdb : repo.defaultBranch.getD "" = ""
  · rw [processRepo_noBranch cfg pj repo st hdb] at h
    injection h with h
    subst h
    exact ⟨TallyRows_placeholder _ _ hInv.tallyRows pj repo.name "",
           hInv.posOfNe, hInv.codeEmpty⟩
  · cases hrec : recentPathsOf cfg repo with
    | error e =>
      rw [processRepo_recentErr cfg pj repo st e hdb hrec] at h
      exact Except.noConfusion h
    | ok recent =>
      cases hfiles : repo.filesResult with
      | error e =>
        rw [processRepo_filesErr cfg pj repo st recent e hdb hrec hfiles] at h
        injection h with h
        subst h
        exact ⟨hInv.tallyRows, hInv.posOfNe, hInv.codeEmpty⟩
      | ok files =>
        by_cases hzero :
            ((countedFiles recent files).map (fun it => it.size)).sum = 0
        · rw [processRepo_zeroTotal cfg pj repo st recent files hdb hrec
              hfiles hzero] at h
          injection h with h
          subst h
          exact ⟨TallyRows_placeholder _ _ hInv.tallyRows pj repo.name _,
                 hInv.posOfNe, hInv.codeEmpty⟩
        · rw [processRepo_posTotal cfg pj repo st recent files hdb hrec
              hfiles hzero] at h
          have hlbs_sum : sumTally (repoLangBytes (countedFiles recent files)) =
              ((countedFiles recent files).map (fun it => it.size)).sum :=
            sumTally_repoLangBytes _
          have hlbs_ne : repoLangBytes (countedFiles recent files) ≠ [] := by
            intro hnil
            rw [hnil] at hlbs_sum
            exact hzero hlbs_sum.symm
          cases hex : cfg.exclude_non_code with
          | true =>
            rcases hlbs : repoLangBytes (countedFiles recent files) with
              _ | ⟨lb, lbs⟩
            · exact absurd hlbs hlbs_ne
            · rw [hlbs, foldlM_emitRow_err cfg pj repo.name _ hex lb lbs st]
                at h
              exact Except.noConfusion h
          | false =>
            rw [foldlM_emitRow_ok cfg pj repo.name _ hex] at h
            injection h with h
            subst h
            refine ⟨?_, ?_, ?_⟩
            · exact TallyRows_fold pj repo.name _ _ st.per_repo_rows
                st.tenant_totals hInv.tallyRows (repoLangBytes_keys_ne _)
            · intro _
              show 0 < sumTally ((repoLangBytes (countedFiles recent files)).foldl
                (fun t2 lb => addTally t2 lb.1 lb.2) st.tenant_totals)
              rw [sumTally_foldl, hlbs_sum]
              have hpos : 0 <
                  ((countedFiles recent files).map (fun it => it.size)).sum :=
                Nat.pos_of_ne_zero hzero
              omega
            · intro hnil
              exact absurd hnil (foldl_addTally_ne_nil _ _ hlbs_ne)

lemma foldlM_preserves {α : Type} (f : RunState → α → Except String RunState)
    (hf : ∀ st a st2, RunInv st → f st a = .ok st2 → RunInv st2) :
    ∀ (l : List α) (st st2 : RunState), RunInv st →
      l.foldlM f st = .ok st2 → RunInv st2 := by
  intro l
  induction l with
  | nil =>
    intro st st2 hInv h
    rw [List.foldlM_nil] at h
    injection h with h
    subst h
    exact hInv
  | cons a l ih =>
    intro st st2 hInv h
    rw [List.foldlM_cons] at h
    cases hfa : f st a with
    | error e =>
      rw [hfa] at h
      exact Except.noConfusion h
    | ok st1 =>
      rw [hfa] at h
      have hbind : ((Except.ok st1 : Except String RunState) >>=
          fun b2 => l.foldlM f b2) = l.foldlM f st1 := rfl
      rw [hbind] at h
      exact ih st1 st2 (hf st a st1 hInv hfa) h

lemma runInv_init : RunInv initState := by
  refine ⟨⟨?_, ?_, ?_, ?_⟩, ?_, ?_⟩
  · simp [initState]
  · intro q hq
    simp [initState] at hq
  · intro L _
    simp [initState, lookupTally]
  · rfl
  · intro hne
    exact absurd rfl hne
  · intro _
    rfl

lemma runMain_ok_state (cfg : Config) (projects : List ProjectData)
    (out : RunOutput) (h : runMain cfg projects = .ok out) :
    RunInv ⟨out.per_repo_rows, out.tenant_totals,
            out.tenant_totals_code_only, out.errors⟩ ∧
    out = finishRun ⟨out.per_repo_rows, out.tenant_totals,
            out.tenant_totals_code_only, out.errors⟩ := by
  unfold runMain at h
  cases hfold : projects.foldlM
      (fun st pr =>
        pr.repos.foldlM (fun st2 repo => processRepo cfg pr.name repo st2) st)
      initState with
  | error e =>
    rw [hfold] at h
    exact Except.noConfusion h
  | ok st =>
    rw [hfold] at h
    injection h with h
    have hInv : RunInv st := by
      refine foldlM_preserves _ ?_ projects initState st runInv_init hfold
      intro st1 pr st2 h1 h2
      exact foldlM_preserves _
        (fun s repo s2 hs hh => runInv_processRepo cfg pr.name repo s s2 hs hh)
        pr.repos st1 st2 h1 h2
    subst h
    exact ⟨hInv, rfl⟩

/-- **C10.** When the run produces no nonzero-byte repo-level row at all,
the tenant tally is empty and both percentage denominators fall back to 1
(`sum(...) or 1`), so no division by zero occurs: the tenant report still
carries its header with zero data rows, and the code-only console summary
prints zero language lines. -/
theorem empty_tally_fallback_denominator (cfg : Config)
    (projects : List ProjectData) (out : RunOutput)
    (h : runMain cfg projects = .ok out)
    (hz : ∀ r ∈ out.per_repo_rows, r.bytes = 0) :
    out.tenant_totals = [] ∧ out.total_all = 1 ∧ out.tenantRows = [] ∧
    out.total_code = 1 ∧ out.codeSummary = [] ∧
    out.tenantCsvHeader = ["language", "bytes", "percent_all_files"] := by
  obtain ⟨hInv, hout⟩ := runMain_ok_state cfg projects out h
  have hsum : sumTally out.tenant_totals = 0 := by
    have hs : sumTally out.tenant_totals = rowsTotal out.per_repo_rows :=
      hInv.tallyRows.sumChar
    rw [hs]
    unfold rowsTotal
    apply List.sum_eq_zero
    intro x hx
    rcases List.mem_map.mp hx with ⟨r, hr, hxx⟩
    rw [← hxx]
    exact hz r hr
  have hnil : out.tenant_totals = [] := by
    by_contra hne
    have hpos : 0 < sumTally out.tenant_totals := hInv.posOfNe hne
    omega
  have hcode : out.tenant_totals_code_only = [] := hInv.codeEmpty hnil
  refine ⟨hnil, ?_, ?_, ?_, ?_, ?_⟩ <;>
    · rw [hout]
      simp [finishRun, hnil, hcode, sumTally, sortTallyDesc]

/-- Witness for C10: a run over a single branchless repository. -/
theorem empty_tally_fallback_denominator_witness :
    runMain ⟨false, false, false⟩ [⟨"P", [c5RepoNoBranch]⟩] = .ok c10Out ∧
    (c10Out.tenant_totals = [] ∧ c10Out.total_all = 1 ∧
      c10Out.tenantRows = [] ∧ c10Out.total_code = 1 ∧
      c10Out.codeSummary = [] ∧
      c10Out.tenantCsvHeader = ["language", "bytes", "percent_all_files"]) :=
  ⟨rfl, empty_tally_fallback_denominator ⟨false, false, false⟩
      [⟨"P", [c5RepoNoBranch]⟩] c10Out rfl (by decide)⟩

lemma insertDesc_perm (x : String × Nat) (l : Tally) :
    List.Perm (insertDesc x l) (x :: l) := by
  induction l with
  | nil => exact List.Perm.refl _
  | cons y ys ih =>
    unfold insertDesc
    by_cases h : y.2 ≤ x.2
    · rw [if_pos h]
    · rw [if_neg h]
      exact (ih.cons y).trans (List.Perm.swap x y ys)

lemma sortTallyDesc_perm (l : Tally) : List.Perm (sortTallyDesc l) l := by
  induction l with
  | nil => exact List.Perm.refl _
  | cons x xs ih =>
    unfold sortTallyDesc
    exact (insertDesc_perm x (sortTallyDesc xs)).trans (ih.cons x)

lemma lookupTally_eq_some_of_mem (t : Tally)
    (hnd : (t.map (fun q => q.1)).Nodup) (L : String) (b : Nat)
    (hmem : (L, b) ∈ t) : lookupTally t L = some b := by
  induction t with
  | nil => simp at hmem
  | cons q t ih =>
    rw [List.map_cons, List.nodup_cons] at hnd
    rw [lookupTally_cons]
    rcases List.mem_cons.mp hmem with h | h
    · rw [← h]
      rw [if_pos rfl]
    · by_cases hq : q.1 = L
      · exfalso
        apply hnd.1
        rw [hq]
        exact List.mem_map_of_mem (fun q => q.1) h
      · rw [if_neg hq]
        exact ih hnd.2 h

lemma mem_of_lookupTally_eq_some (t : Tally) (L : String) (b : Nat)
    (h : lookupTally t L = some b) : (L, b) ∈ t := by
  induction t with
  | nil => simp [lookupTally] at h
  | cons q t ih =>
    rw [lookupTally_cons] at h
    by_cases hq : q.1 = L
    · rw [if_pos hq] at h
      injection h with h
      have hqe : q = (L, b) := by
        rcases q with ⟨k, v⟩
        simp only at hq h
        rw [hq, h]
      rw [← hqe]
      exact List.mem_cons_self q t
    · rw [if_neg hq] at h
      exact List.mem_cons_of_mem q (ih h)

/-- **C6 counterexample.** A repository holding a zero-byte `z.py` next to a
50-byte `b.md` produces a repo-level `Python` row with zero bytes, and a
tenant-level `Python` row appears even though no repo-level `Python` row has
nonzero bytes — so the tenant-level language set is not "exactly the
languages appearing in some repo-level row with nonzero bytes". -/
theorem tenant_rows_zero_byte_counterexample :
    runMain ⟨false, false, false⟩ [c6Project] = .ok c6Out ∧
    c6Out.per_repo_rows.map (fun r => (r.language, r.bytes)) =
      [("Python", 0), ("Markdown", 50)] ∧
    c6Out.tenantRows.map (fun r => (r.language, r.bytes)) =
      [("Markdown", 50), ("Python", 0)] ∧
    c6Out.per_repo_rows.filter
      (fun r => decide (r.language = "Python") && decide (0 < r.bytes)) =
      [] :=
  ⟨rfl, rfl, rfl, rfl⟩

/-- **C6 amended.** When no recency filter is active (and the run succeeds),
a tenant-level row exists exactly for the languages that appear in some
repo-level row with a nonempty language label (equivalently: in some row of
a repository whose counted total was positive — such a row may itself carry
zero bytes, from a zero-byte file), and every tenant-level row's byte count
equals the sum of the bytes of all repo-level rows for its language. -/
theorem tenant_rows_match_repo_rows (cfg : Config)
    (projects : List ProjectData) (out : RunOutput)
    (h : runMain cfg projects = .ok out) (hnf : cfg.since = false) :
    ∀ L : String,
      ((∃ tr ∈ out.tenantRows, tr.language = L) ↔
        (L ≠ "" ∧ ∃ r ∈ out.per_repo_rows, r.language = L))
      ∧ ∀ tr ∈ out.tenantRows, tr.language = L →
          tr.bytes = rowsSum out.per_repo_rows L := by
  obtain ⟨hInv, hout⟩ := runMain_ok_state cfg projects out h
  have htr := hInv.tallyRows
  have hmap : out.tenantRows.map (fun tr => (tr.language, tr.bytes)) =
      sortTallyDesc out.tenant_totals := by
    conv_lhs => rw [hout]
    simp only [finishRun, List.map_map]
    exact List.map_id _
  have hmem_tally : ∀ tr ∈ out.tenantRows,
      (tr.language, tr.bytes) ∈ out.tenant_totals := by
    intro tr htrm
    have h1 : (tr.language, tr.bytes) ∈
        out.tenantRows.map (fun tr => (tr.language, tr.bytes)) :=
      List.mem_map_of_mem _ htrm
    rw [hmap] at h1
    exact (sortTallyDesc_perm out.tenant_totals).mem_iff.mp h1
  intro L
  have hvalue : ∀ tr ∈ out.tenantRows, tr.language = L →
      tr.bytes = rowsSum out.per_repo_rows L := by
    intro tr htrm hlang
    have hm := hmem_tally tr htrm
    rw [hlang] at hm
    have hLne : L ≠ "" := htr.keysNe (L, tr.bytes) hm
    have hl : lookupTally out.tenant_totals L = some tr.bytes :=
      lookupTally_eq_some_of_mem out.tenant_totals htr.nodupKeys L tr.bytes hm
    rw [htr.lookupChar L hLne] at hl
    by_cases hany : out.per_repo_rows.any (fun r => r.language = L) = true
    · rw [if_pos hany] at hl
      injection hl with hl
      exact hl.symm
    · rw [if_neg hany] at hl
      exact Option.noConfusion hl
  refine ⟨⟨?_, ?_⟩, hvalue⟩
  · rintro ⟨tr, htrm, hlang⟩
    have hm := hmem_tally tr htrm
    rw [hlang] at hm
    have hLne : L ≠ "" := htr.keysNe (L, tr.bytes) hm
    refine ⟨hLne, ?_⟩
    have hl : lookupTally out.tenant_totals L = some tr.bytes :=
      lookupTally_eq_some_of_mem out.tenant_totals htr.nodupKeys L tr.bytes hm
    rw [htr.lookupChar L hLne] at hl
    by_cases hany : out.per_repo_rows.any (fun r => r.language = L) = true
    · rcases List.any_eq_true.mp hany with ⟨r, hr, hrl⟩
      exact ⟨r, hr, of_decide_eq_true hrl⟩
    · rw [if_neg hany] at hl
      exact Option.noConfusion hl
  · rintro ⟨hLne, r, hr, hrl⟩
    have hany : out.per_repo_rows.any (fun x => x.language = L) = true :=
      List.any_eq_true.mpr ⟨r, hr, decide_eq_true hrl⟩
    have hl : lookupTally out.tenant_totals L =
        some (rowsSum out.per_repo_rows L) := by
      rw [htr.lookupChar L hLne, if_pos hany]
    have hm : (L, rowsSum out.per_repo_rows L) ∈ out.tenant_totals :=
      mem_of_lookupTally_eq_some out.tenant_totals L _ hl
    have hm2 : (L, rowsSum out.per_repo_rows L) ∈
        sortTallyDesc out.tenant_totals :=
      (sortTallyDesc_perm out.tenant_totals).mem_iff.mpr hm
    rw [← hmap] at hm2
    rcases List.mem_map.mp hm2 with ⟨tr, htrm, hpair⟩
    refine ⟨tr, htrm, ?_⟩
    have := congrArg Prod.fst hpair
    simpa using this

/-- Witness for the amended C6: the §8 scenario run, at language Python. -/
theorem tenant_rows_match_repo_rows_witness :
    runMain ⟨false, false, false⟩ [demoProject] = .ok demoOut ∧
    (((∃ tr ∈ demoOut.tenantRows, tr.language = "Python") ↔
        ("Python" ≠ "" ∧
          ∃ r ∈ demoOut.per_repo_rows, r.language = "Python"))
      ∧ ∀ tr ∈ demoOut.tenantRows, tr.language = "Python" →
          tr.bytes = rowsSum demoOut.per_repo_rows "Python") :=
  ⟨rfl, tenant_rows_match_repo_rows ⟨false, false, false⟩ [demoProject]
      demoOut rfl rfl "Python"⟩

lemma insertDesc_sorted (x : String × Nat) (l : Tally)
    (hs : List.Pairwise (fun a b : String × Nat => b.2 ≤ a.2) l) :
    List.Pairwise (fun a b : String × Nat => b.2 ≤ a.2) (insertDesc x l) := by
  induction l with
  | nil => simp [insertDesc]
  | cons y ys ih =>
    rw [List.pairwise_cons] at hs
    unfold insertDesc
    by_cases h : y.2 ≤ x.2
    · rw [if_pos h]
      rw [List.pairwise_cons]
      constructor
      · intro z hz
        rcases List.mem_cons.mp hz with hzy | hzys
        · rw [hzy]
          exact h
        · exact le_trans (hs.1 z hzys) h
      · exact List.pairwise_cons.mpr hs
    · rw [if_neg h]
      rw [List.pairwise_cons]
      constructor
      · intro z hz
        have hz2 : z ∈ x :: ys := (insertDesc_perm x ys).mem_iff.mp hz
        rcases List.mem_cons.mp hz2 with hzx | hzys
        · rw [hzx]
          omega
        · exact hs.1 z hzys
      · exact ih hs.2

lemma sortTallyDesc_sorted (l : Tally) :
    List.Pairwise (fun a b : String × Nat => b.2 ≤ a.2) (sortTallyDesc l) := by
  induction l with
  | nil => simp [sortTallyDesc]
  | cons x xs ih =>
    unfold sortTallyDesc
    exact insertDesc_sorted x _ ih

lemma insertDesc_filter (x : String × Nat) (n : Nat) :
    ∀ l : Tally,
      (insertDesc x l).filter (fun q => q.2 = n) =
        if x.2 = n then x :: l.filter (fun q => q.2 = n)
        else l.filter (fun q => q.2 = n) := by
  intro l
  induction l with
  | nil =>
    unfold insertDesc
    by_cases hx : x.2 = n
    · rw [if_pos hx]
      simp [hx]
    · rw [if_neg hx]
      simp [hx]
  | cons y ys ih =>
    unfold insertDesc
    by_cases h : y.2 ≤ x.2
    · rw [if_pos h]
      by_cases hx : x.2 = n
      · simp [List.filter_cons, hx]
      · simp [List.filter_cons, hx]
    · rw [if_neg h]
      by_cases hx : x.2 = n
      · have hyn : ¬(y.2 = n) := by omega
        simp [List.filter_cons, ih, hx, hyn]
      · by_cases hy : y.2 = n
        · simp [List.filter_cons, ih, hx, hy]
        · simp [List.filter_cons, ih, hx, hy]

lemma sortTallyDesc_filter (n : Nat) :
    ∀ l : Tally,
      (sortTallyDesc l).filter (fun q => q.2 = n) =
        l.filter (fun q => q.2 = n) := by
  intro l
  induction l with
  | nil => rfl
  | cons x xs ih =>
    unfold sortTallyDesc
    rw [insertDesc_filter, ih]
    by_cases hx : x.2 = n
    · rw [if_pos hx, List.filter_cons, decide_eq_true hx, if_pos rfl]
    · rw [if_neg hx, List.filter_cons, decide_eq_false hx]
      simp

/-- **C8.** The tenant-level rows come out sorted by descending byte count
(a stable sort of the insertion-ordered tally, as `Counter.most_common`
performs): the emitted row sequence is pairwise non-increasing in bytes, it
is a permutation of the tally, and for every byte value the rows carrying
it list their languages in exactly the tally's first-insertion order — so
for a fixed input the tenant-level output order is deterministic. -/
theorem tenant_rows_sorted_desc_stable (cfg : Config)
    (projects : List ProjectData) (out : RunOutput)
    (h : runMain cfg projects = .ok out) :
    List.Pairwise (fun r s : TenantRow => s.bytes ≤ r.bytes) out.tenantRows
    ∧ List.Perm (out.tenantRows.map (fun r => (r.language, r.bytes)))
        out.tenant_totals
    ∧ ∀ n : Nat,
        (out.tenantRows.filter (fun r => r.bytes = n)).map
            (fun r => r.language) =
          (out.tenant_totals.filter (fun q => q.2 = n)).map
            (fun q => q.1) := by
  obtain ⟨hInv, hout⟩ := runMain_ok_state cfg projects out h
  have hmap : out.tenantRows.map (fun tr => (tr.language, tr.bytes)) =
      sortTallyDesc out.tenant_totals := by
    conv_lhs => rw [hout]
    simp only [finishRun, List.map_map]
    exact List.map_id _
  refine ⟨?_, ?_, ?_⟩
  · have hs : (out.tenantRows.map (fun tr => (tr.language, tr.bytes))).Pairwise
        (fun a b : String × Nat => b.2 ≤ a.2) := by
      rw [hmap]
      exact sortTallyDesc_sorted _
    rw [List.pairwise_map] at hs
    exact hs
  · rw [hmap]
    exact sortTallyDesc_perm _
  · intro n
    have hst := sortTallyDesc_filter n out.tenant_totals
    rw [← hmap] at hst
    rw [← hst, List.filter_map, List.map_map]
    rfl

/-- Witness for C8: the §8 scenario run. -/
theorem tenant_rows_sorted_desc_stable_witness :
    runMain ⟨false, false, false⟩ [demoProject] = .ok demoOut ∧
    List.Pairwise (fun r s : TenantRow => s.bytes ≤ r.bytes)
      demoOut.tenantRows :=
  ⟨rfl, (tenant_rows_sorted_desc_stable ⟨false, false, false⟩ [demoProject]
      demoOut rfl).1⟩

lemma roundHalfEven_close (x : ℚ) : |(roundHalfEven x : ℚ) - x| ≤ 1 / 2 := by
  unfold roundHalfEven
  have h1 : (⌊x⌋ : ℚ) ≤ x := Int.floor_le x
  have h2 : x < ⌊x⌋ + 1 := Int.lt_floor_add_one x
  by_cases hlt : x - ⌊x⌋ < 1 / 2
  · rw [if_pos hlt, abs_le]
    constructor <;> linarith
  · rw [if_neg hlt]
    by_cases hgt : 1 / 2 < x - ⌊x⌋
    · rw [if_pos hgt]
      push_cast
      rw [abs_le]
      constructor <;> linarith
    · rw [if_neg hgt]
      by_cases hev : ⌊x⌋ % 2 = 0
      · rw [if_pos hev, abs_le]
        constructor <;> linarith
      · rw [if_neg hev]
        push_cast
        rw [abs_le]
        constructor <;> linarith

lemma round2_close (x : ℚ) : |round2 x - x| ≤ 1 / 200 := by
  unfold round2
  have h := roundHalfEven_close (x * 100)
  have heq : (roundHalfEven (x * 100) : ℚ) / 100 - x =
      ((roundHalfEven (x * 100) : ℚ) - x * 100) / 100 := by ring
  rw [heq, abs_div]
  rw [abs_of_pos (by norm_num : (0 : ℚ) < 100)]
  linarith

lemma sum_round2_close (g : String × Nat → ℚ) :
    ∀ l : Tally,
      |(l.map (fun lb => round2 (g lb))).sum - (l.map g).sum| ≤
        l.length * (1 / 200) := by
  intro l
  induction l with
  | nil => simp
  | cons lb l ih =>
    simp only [List.map_cons, List.sum_cons, List.length_cons]
    have h1 : |round2 (g lb) - g lb| ≤ 1 / 200 := round2_close (g lb)
    have habs : |round2 (g lb) + (l.map (fun lb => round2 (g lb))).sum -
        (g lb + (l.map g).sum)| ≤
        |round2 (g lb) - g lb| +
          |(l.map (fun lb => round2 (g lb))).sum - (l.map g).sum| := by
      have heq : round2 (g lb) + (l.map (fun lb => round2 (g lb))).sum -
          (g lb + (l.map g).sum) =
          (round2 (g lb) - g lb) +
            ((l.map (fun lb => round2 (g lb))).sum - (l.map g).sum) := by
        ring
      rw [heq]
      exact abs_add _ _
    push_cast
    linarith

lemma sum_shares (T : ℚ) :
    ∀ l : Tally,
      (l.map (fun lb => 100 * (lb.2 : ℚ) / T)).sum =
        100 * ((l.map (fun lb => (lb.2 : ℚ))).sum) / T := by
  intro l
  induction l with
  | nil => simp
  | cons lb l ih =>
    simp only [List.map_cons, List.sum_cons, ih]
    ring

lemma cast_sumTally : ∀ l : Tally,
    ((sumTally l : Nat) : ℚ) = (l.map (fun lb => (lb.2 : ℚ))).sum := by
  intro l
  induction l with
  | nil => simp [sumTally]
  | cons lb l ih =>
    simp only [sumTally, List.map_cons, List.sum_cons] at ih ⊢
    push_cast at ih ⊢
    rw [ih]

/-- **C7.** Whenever at least one tenant-level row is emitted, the
`percent_all_files` values — each `round(100 * bytes / total, 2)` — sum to
100 within rounding tolerance: the distance from 100 is at most 1/200
(= 0.005) per emitted row. -/
theorem tenant_percent_sum_tolerance (cfg : Config)
    (projects : List ProjectData) (out : RunOutput)
    (h : runMain cfg projects = .ok out) (hne : out.tenantRows ≠ []) :
    |(out.tenantRows.map (fun r => r.percent_all_files)).sum - 100| ≤
      out.tenantRows.length * (1 / 200 : ℚ) := by
  obtain ⟨hInv, hout⟩ := runMain_ok_state cfg projects out h
  have hrows_eq : out.tenantRows = (sortTallyDesc out.tenant_totals).map
      (fun lb => ({ language := lb.1,
                    bytes := lb.2,
                    percent_all_files := round2 (100 * (lb.2 : ℚ) /
                      (Nat.cast (if sumTally out.tenant_totals = 0 then 1
                        else sumTally out.tenant_totals) : ℚ)) } :
        TenantRow)) := by
    conv_lhs => rw [hout]
    rfl
  have htnil : out.tenant_totals ≠ [] := by
    intro hnil
    apply hne
    rw [hrows_eq, hnil]
    rfl
  have hTpos : 0 < sumTally out.tenant_totals := hInv.posOfNe htnil
  have hT0 : ¬(sumTally out.tenant_totals = 0) := by omega
  have hrows_eq2 : out.tenantRows = (sortTallyDesc out.tenant_totals).map
      (fun lb => ({ language := lb.1,
                    bytes := lb.2,
                    percent_all_files := round2 (100 * (lb.2 : ℚ) /
                      ((sumTally out.tenant_totals : Nat) : ℚ)) } :
        TenantRow)) := by
    rw [hrows_eq]
    simp only [if_neg hT0]
  have hpercents : out.tenantRows.map (fun r => r.percent_all_files) =
      (sortTallyDesc out.tenant_totals).map
        (fun lb => round2 (100 * (lb.2 : ℚ) /
          ((sumTally out.tenant_totals : Nat) : ℚ))) := by
    rw [hrows_eq2, List.map_map]
    rfl
  have hlen : out.tenantRows.length =
      (sortTallyDesc out.tenant_totals).length := by
    rw [hrows_eq2, List.length_map]
  have hbound := sum_round2_close
    (fun lb => 100 * (lb.2 : ℚ) / ((sumTally out.tenant_totals : Nat) : ℚ))
    (sortTallyDesc out.tenant_totals)
  have hshare : ((sortTallyDesc out.tenant_totals).map
      (fun lb => 100 * (lb.2 : ℚ) /
        ((sumTally out.tenant_totals : Nat) : ℚ))).sum = 100 := by
    rw [sum_shares]
    have hsum_perm : ((sortTallyDesc out.tenant_totals).map
        (fun lb => (lb.2 : ℚ))).sum =
        (out.tenant_totals.map (fun lb => (lb.2 : ℚ))).sum :=
      ((sortTallyDesc_perm out.tenant_totals).map
        (fun lb => (lb.2 : ℚ))).sum_eq
    rw [hsum_perm, ← cast_sumTally]
    have hTne : ((sumTally out.tenant_totals : Nat) : ℚ) ≠ 0 := by
      rw [Nat.cast_ne_zero]
      exact hT0
    field_simp
  rw [hpercents, hlen]
  rw [hshare] at hbound
  exact hbound

/-- Witness for C7: the §8 scenario run, whose two tenant rows have
percentages 66.67 and 33.33 summing to exactly 100. -/
theorem tenant_percent_sum_tolerance_witness :
    runMain ⟨false, false, false⟩ [demoProject] = .ok demoOut ∧
    demoOut.tenantRows ≠ [] ∧
    |(demoOut.tenantRows.map (fun r => r.percent_all_files)).sum - 100| ≤
      demoOut.tenantRows.length * (1 / 200 : ℚ) :=
  ⟨rfl, by decide,
   tenant_percent_sum_tolerance ⟨false, false, false⟩ [demoProject] demoOut
     rfl (by decide)⟩

/-- Witness for C9: `gz` is absent from the table and classifies as
`Other`. -/
theorem classifier_pure_extension_lookup_witness :
    EXT_TO_LANG.lookup "gz" = none ∧ lang_from_ext "gz" = "Other" :=
  ⟨rfl, classifier_pure_extension_lookup.2.1 "gz" rfl⟩
